import Mathlib

/-
Shallow embedding of the DPDK EAL alarm engine
(src/dpdk-stable-22.11.3/lib/eal/linux/eal_alarm.c).

Pointers (callback function pointers, callback arguments, pthread ids)
are modelled as natural numbers; NULL is 0 and the cancel wildcard
argument, written as a cast of -1 to a pointer in the source, is the
64-bit all-ones value.  Machine uint64_t arithmetic is modelled on Nat
with an explicit reduction modulo 2^64 where the source performs the
addition on uint64_t.  The linked list of pending alarms is a Lean list,
and the stateful operations are functions from a state to a state paired
with their return value.  External effects are oracles passed as
arguments: the clock reading, the success of calloc and of
rte_intr_callback_register, and the return value of timerfd_settime.
-/

namespace EalAlarm

def NS_PER_US : Nat := 1000
def US_PER_S : Nat := 1000000
def UINT64_MAX : Nat := 18446744073709551615
def U64_MOD : Nat := 18446744073709551616

/- Linux errno values used by the source. -/
def ENOENT : Nat := 2
def ENOMEM : Nat := 12
def EINVAL : Nat := 22
def EINPROGRESS : Nat := 115

/- The wildcard cancel argument, (void *)-1 on a 64-bit target. -/
def WILDCARD : Nat := UINT64_MAX

/- struct timespec from clock_gettime: seconds + nanoseconds. -/
structure Timespec where
  tv_sec : Nat
  tv_nsec : Nat
deriving DecidableEq, Repr

/- struct timeval stored in an alarm entry: seconds + microseconds. -/
structure Timeval where
  tv_sec : Nat
  tv_usec : Nat
deriving DecidableEq, Repr

/- struct alarm_entry. -/
structure AlarmEntry where
  time : Timeval
  cb_fn : Nat
  cb_arg : Nat
  executing : Bool
  executing_id : Nat
deriving DecidableEq, Repr

/- Comparison ap.time > new.time used by the insertion loop of
rte_eal_alarm_set (strict lexicographic on seconds then microseconds). -/
def tvGt (a b : Timeval) : Bool :=
  decide (b.tv_sec < a.tv_sec ∨ (a.tv_sec = b.tv_sec ∧ b.tv_usec < a.tv_usec))

/- Lexicographic order "a at or before b"; the negation of tvGt. -/
def tvLe (a b : Timeval) : Prop :=
  a.tv_sec < b.tv_sec ∨ (a.tv_sec = b.tv_sec ∧ a.tv_usec ≤ b.tv_usec)

instance (a b : Timeval) : Decidable (tvLe a b) := by
  unfold tvLe; infer_instance

def entLe (a b : AlarmEntry) : Prop := tvLe a.time b.time

instance (a b : AlarmEntry) : Decidable (entLe a b) := by
  unfold entLe; infer_instance

/- The pending set is sorted non-decreasingly by deadline. -/
def sortedAlarms (l : List AlarmEntry) : Prop := l.Pairwise entLe

/- Due test of the dispatch loop of eal_alarm_callback:
ap.time.tv_sec < now.tv_sec, or equal seconds and
ap.time.tv_usec * NS_PER_US <= now.tv_nsec. -/
def tvDue (t : Timeval) (now : Timespec) : Bool :=
  decide (t.tv_sec < now.tv_sec ∨
    (t.tv_sec = now.tv_sec ∧ t.tv_usec * NS_PER_US ≤ now.tv_nsec))

/- Deadline computation of rte_eal_alarm_set lines 151-152: the sum
(now.tv_nsec / NS_PER_US) + us is computed on uint64_t, hence the
reduction modulo 2^64. -/
def alarmTime (now : Timespec) (us : Nat) : Timeval :=
  let sum : Nat := (now.tv_nsec / NS_PER_US + us) % U64_MOD
  { tv_sec := now.tv_sec + sum / US_PER_S, tv_usec := sum % US_PER_S }

/- The alarm entry built by rte_eal_alarm_set; calloc zero-fills, so
executing is false and executing_id is 0. -/
def mkAlarm (now : Timespec) (us cb_fn cb_arg : Nat) : AlarmEntry :=
  { time := alarmTime now us, cb_fn := cb_fn, cb_arg := cb_arg,
    executing := false, executing_id := 0 }

/- Sorted insertion of rte_eal_alarm_set lines 162-177: insert before
the first entry with a strictly greater deadline; if none, append at the
end (LIST_INSERT_AFTER on the last entry). -/
def insertAlarm (na : AlarmEntry) : List AlarmEntry → List AlarmEntry
  | [] => [na]
  | a :: rest =>
    if tvGt a.time na.time then na :: a :: rest
    else a :: insertAlarm na rest

/- Engine state shared under alarm_list_lk. -/
structure AlarmState where
  alarm_list : List AlarmEntry
  handler_registered : Bool
deriving DecidableEq, Repr

/- rte_eal_alarm_set.  Oracles: now is the clock_gettime reading,
allocOk the success of calloc, regOk the success of
rte_intr_callback_register, settimeRet the return of timerfd_settime.
Returns the new state and the int return value. -/
def rte_eal_alarm_set (us cb_fn cb_arg : Nat) (now : Timespec)
    (allocOk regOk : Bool) (settimeRet : Int) (st : AlarmState) :
    AlarmState × Int :=
  if us < 1 ∨ us > UINT64_MAX - US_PER_S ∨ cb_fn = 0 then
    (st, -(EINVAL : Int))
  else if allocOk = false then
    (st, -(ENOMEM : Int))
  else
    let new_alarm := mkAlarm now us cb_fn cb_arg
    let registered := if st.handler_registered = false then regOk else true
    let isHead : Bool :=
      match st.alarm_list with
      | [] => true
      | a :: _ => tvGt a.time new_alarm.time
    let ret : Int := if isHead then settimeRet else 0
    ({ alarm_list := insertAlarm new_alarm st.alarm_list,
       handler_registered := registered }, ret)

/- Match test of rte_eal_alarm_cancel:
cb_fn == ap.cb_fn and (cb_arg == (void *)-1 or cb_arg == ap.cb_arg). -/
def matchesEntry (cb arg : Nat) (a : AlarmEntry) : Bool :=
  decide (cb = a.cb_fn ∧ (arg = WILDCARD ∨ arg = a.cb_arg))

/- Result of one phase or one full pass of the cancel loop: the list
left behind, the number of entries removed and freed, the value of the
local counter named executing (matches running on another thread), and
whether err was set to EINPROGRESS. -/
structure CancelPass where
  list : List AlarmEntry
  count : Nat
  executing : Nat
  err : Bool
deriving DecidableEq, Repr

/- Phase A of a cancel pass (lines 213-234): remove matching idle
entries at the head of the list; stop at the first entry that does not
match, and break at a matching entry that is executing, bumping the
executing counter when it runs on another thread and setting err to
EINPROGRESS when it runs on the calling thread tid. -/
def drainHead (cb arg tid : Nat) : List AlarmEntry → CancelPass
  | [] => ⟨[], 0, 0, false⟩
  | a :: rest =>
    if matchesEntry cb arg a then
      if a.executing = false then
        let p := drainHead cb arg tid rest
        ⟨p.list, p.count + 1, p.executing, p.err⟩
      else if a.executing_id ≠ tid then ⟨a :: rest, 0, 1, false⟩
      else ⟨a :: rest, 0, 0, true⟩
    else ⟨a :: rest, 0, 0, false⟩

/- Phase B of a cancel pass (lines 238-254): walk the whole remaining
list, removing matching idle entries and accounting matching executing
entries exactly as phase A does, without stopping early. -/
def scanTail (cb arg tid : Nat) : List AlarmEntry → CancelPass
  | [] => ⟨[], 0, 0, false⟩
  | a :: rest =>
    let p := scanTail cb arg tid rest
    if matchesEntry cb arg a then
      if a.executing = false then ⟨p.list, p.count + 1, p.executing, p.err⟩
      else if a.executing_id ≠ tid then
        ⟨a :: p.list, p.count, p.executing + 1, p.err⟩
      else ⟨a :: p.list, p.count, p.executing, true⟩
    else ⟨a :: p.list, p.count, p.executing, p.err⟩

/- One pass of the do-while loop of rte_eal_alarm_cancel: phase A
followed by phase B on what phase A left (the LIST_FOREACH restarts
from the head of the list, so a matching executing entry that stopped
phase A is examined again by phase B). -/
def cancelPass (cb arg tid : Nat) (l : List AlarmEntry) : CancelPass :=
  let pA := drainHead cb arg tid l
  let pB := scanTail cb arg tid pA.list
  ⟨pB.list, pA.count + pB.count, pA.executing + pB.executing,
   pA.err || pB.err⟩

/- The do-while loop: repeat passes while the executing counter of the
last pass is non-zero; count and err persist across passes.  In this
sequential model the list changes only through the passes themselves,
so the loop is given fuel; none models non-termination (the loop still
spinning). -/
def cancelLoop (cb arg tid : Nat) :
    Nat → List AlarmEntry → Nat → Bool →
    Option (List AlarmEntry × Nat × Bool)
  | 0, _, _, _ => none
  | fuel + 1, l, count, err =>
    let p := cancelPass cb arg tid l
    if p.executing = 0 then some (p.list, count + p.count, err || p.err)
    else cancelLoop cb arg tid fuel p.list (count + p.count) (err || p.err)

/- rte_eal_alarm_cancel.  tid is pthread_self of the caller.  Returns
the final list, the int return value, and the value written to
rte_errno (none when rte_errno is left untouched). -/
def rte_eal_alarm_cancel (cb arg tid : Nat) (l : List AlarmEntry)
    (fuel : Nat) : Option (List AlarmEntry × Int × Option Nat) :=
  if cb = 0 then some (l, -1, some EINVAL)
  else
    match cancelLoop cb arg tid fuel l 0 false with
    | none => none
    | some (lf, count, err) =>
      let errno : Option Nat :=
        if count = 0 ∧ err = false then some ENOENT
        else if err = true then some EINPROGRESS
        else none
      some (lf, (count : Int), errno)

/- Marking done by the dispatch loop before invoking a callback
(lines 100-101). -/
def markExecuting (tid : Nat) (a : AlarmEntry) : AlarmEntry :=
  { a with executing := true, executing_id := tid }

/- Dispatch drain loop of eal_alarm_callback (lines 96-110): while the
head is due, mark it executing, invoke its callback outside the lock,
then unlink and free it.  Returns the entries fired, in order and as
marked at invocation time, and the remaining list. -/
def drainDue (now : Timespec) (tid : Nat) :
    List AlarmEntry → List AlarmEntry × List AlarmEntry
  | [] => ([], [])
  | a :: rest =>
    if tvDue a.time now then
      let p := drainDue now tid rest
      (markExecuting tid a :: p.1, p.2)
    else ([], a :: rest)

/- Timer reprogramming of eal_alarm_callback lines 115-126: convert the
head deadline to seconds + nanoseconds, borrow one second when
now.tv_nsec exceeds the nanosecond part, then subtract now.  Computed
on Int since the borrow makes intermediate values signed. -/
def reprogram (t : Timeval) (now : Timespec) : Int × Int :=
  let sec0 : Int := (t.tv_sec : Int)
  let nsec0 : Int := ((t.tv_usec * NS_PER_US : Nat) : Int)
  let b : Int × Int :=
    if t.tv_usec * NS_PER_US < now.tv_nsec then
      (sec0 - 1, nsec0 + ((US_PER_S * NS_PER_US : Nat) : Int))
    else (sec0, nsec0)
  (b.1 - (now.tv_sec : Int), b.2 - (now.tv_nsec : Int))

/- eal_alarm_callback: drain the due entries, then if the list is
non-empty write the interval to the new head into the timer fd.
Returns fired entries, remaining list, and the itimerspec value written
(none when the list ended empty and no timerfd_settime happens). -/
def eal_alarm_callback (now : Timespec) (tid : Nat)
    (l : List AlarmEntry) :
    List AlarmEntry × List AlarmEntry × Option (Int × Int) :=
  let p := drainDue now tid l
  (p.1, p.2,
    match p.2 with
    | [] => none
    | h :: _ => some (reprogram h.time now))

/- An entry that a cancel pass removes: it matches and is not
executing. -/
def remPred (cb arg : Nat) (a : AlarmEntry) : Bool :=
  matchesEntry cb arg a && !a.executing

/- An entry that a cancel pass keeps. -/
def keepPred (cb arg : Nat) (a : AlarmEntry) : Bool :=
  !(matchesEntry cb arg a && !a.executing)

/- An entry whose match makes cancel set err = EINPROGRESS: matching,
executing, and run by the calling thread. -/
def selfExec (cb arg tid : Nat) (a : AlarmEntry) : Prop :=
  matchesEntry cb arg a = true ∧ a.executing = true ∧ a.executing_id = tid

/- An entry whose match makes cancel bump the executing counter:
matching, executing, and run by another thread. -/
def foreignExec (cb arg tid : Nat) (a : AlarmEntry) : Prop :=
  matchesEntry cb arg a = true ∧ a.executing = true ∧ a.executing_id ≠ tid

instance (cb arg tid : Nat) (a : AlarmEntry) :
    Decidable (selfExec cb arg tid a) := by
  unfold selfExec; infer_instance

instance (cb arg tid : Nat) (a : AlarmEntry) :
    Decidable (foreignExec cb arg tid a) := by
  unfold foreignExec; infer_instance

instance (l : List AlarmEntry) : Decidable (sortedAlarms l) := by
  unfold sortedAlarms; infer_instance

end EalAlarm

namespace EalAlarm

/- ### Order lemmas -/

lemma tvGt_eq_false_iff (a b : Timeval) : tvGt a b = false ↔ tvLe a b := by
  simp only [tvGt, tvLe, decide_eq_false_iff_not]
  omega

lemma tvLe_of_tvGt {a b : Timeval} (h : tvGt a b = true) : tvLe b a := by
  simp only [tvGt, decide_eq_true_eq] at h
  rcases h with h | ⟨h1, h2⟩
  · exact Or.inl h
  · exact Or.inr ⟨h1.symm, Nat.le_of_lt h2⟩

lemma tvLe_trans {a b c : Timeval} (h1 : tvLe a b) (h2 : tvLe b c) :
    tvLe a c := by
  unfold tvLe at *
  omega

lemma entLe_trans {a b c : AlarmEntry} (h1 : entLe a b) (h2 : entLe b c) :
    entLe a c := tvLe_trans h1 h2

/- ### Insertion lemmas -/

lemma insertAlarm_eq (na : AlarmEntry) (l : List AlarmEntry) :
    insertAlarm na l =
      l.takeWhile (fun a => !tvGt a.time na.time) ++
        na :: l.dropWhile (fun a => !tvGt a.time na.time) := by
  induction l with
  | nil => rfl
  | cons a rest ih =>
    by_cases hg : tvGt a.time na.time
    · simp [insertAlarm, hg, List.takeWhile_cons, List.dropWhile_cons]
    · simp only [Bool.not_eq_true] at hg
      simp [insertAlarm, hg, List.takeWhile_cons, List.dropWhile_cons, ih]

lemma mem_insertAlarm {x na : AlarmEntry} {l : List AlarmEntry} :
    x ∈ insertAlarm na l ↔ x = na ∨ x ∈ l := by
  induction l with
  | nil => simp [insertAlarm]
  | cons a rest ih =>
    by_cases hg : tvGt a.time na.time
    · simp [insertAlarm, hg]
    · simp only [Bool.not_eq_true] at hg
      simp [insertAlarm, hg, ih]
      tauto

lemma insertAlarm_sorted {l : List AlarmEntry} (na : AlarmEntry)
    (h : sortedAlarms l) : sortedAlarms (insertAlarm na l) := by
  induction l with
  | nil => simp [insertAlarm, sortedAlarms]
  | cons a rest ih =>
    rw [sortedAlarms, List.pairwise_cons] at h
    obtain ⟨ha, hrest⟩ := h
    by_cases hg : tvGt a.time na.time
    · simp only [insertAlarm, hg, if_true]
      rw [sortedAlarms, List.pairwise_cons]
      constructor
      · intro b hb
        rcases List.mem_cons.mp hb with hb | hb
        · exact hb ▸ tvLe_of_tvGt hg
        · exact entLe_trans (tvLe_of_tvGt hg) (ha b hb)
      · rw [List.pairwise_cons]
        exact ⟨ha, hrest⟩
    · rw [Bool.not_eq_true] at hg
      simp only [insertAlarm, hg, Bool.false_eq_true, if_false]
      rw [sortedAlarms, List.pairwise_cons]
      constructor
      · intro b hb
        rcases mem_insertAlarm.mp hb with hb | hb
        · exact hb ▸ (tvGt_eq_false_iff a.time na.time).mp hg
        · exact ha b hb
      · exact ih hrest

end EalAlarm

namespace EalAlarm

/- ### Dispatch lemmas -/

lemma drainDue_eq (now : Timespec) (tid : Nat) (l : List AlarmEntry) :
    drainDue now tid l =
      ((l.takeWhile (fun a => tvDue a.time now)).map (markExecuting tid),
        l.dropWhile (fun a => tvDue a.time now)) := by
  induction l with
  | nil => rfl
  | cons a rest ih =>
    by_cases hd : tvDue a.time now
    · simp [drainDue, hd, List.takeWhile_cons, List.dropWhile_cons, ih]
    · rw [Bool.not_eq_true] at hd
      simp [drainDue, hd, List.takeWhile_cons, List.dropWhile_cons]

lemma tvDue_mono {t1 t2 : Timeval} {now : Timespec} (h : tvLe t1 t2)
    (h2 : tvDue t2 now = true) : tvDue t1 now = true := by
  simp only [tvDue, NS_PER_US, decide_eq_true_eq] at *
  unfold tvLe at h
  rcases h with h | ⟨he, hu⟩ <;> rcases h2 with h2 | ⟨h2e, h2u⟩ <;> omega

lemma sorted_takeWhile_dropWhile_filter {l : List AlarmEntry}
    {p : AlarmEntry → Bool}
    (hdc : ∀ a b, entLe a b → p b = true → p a = true)
    (hs : l.Pairwise entLe) :
    l.takeWhile p = l.filter p ∧
      l.dropWhile p = l.filter (fun a => !p a) := by
  induction l with
  | nil => simp
  | cons a rest ih =>
    rw [List.pairwise_cons] at hs
    obtain ⟨ha, hrest⟩ := hs
    by_cases hp : p a
    · have := ih hrest
      simp [List.takeWhile_cons, List.dropWhile_cons, List.filter_cons, hp,
        this.1, this.2]
    · rw [Bool.not_eq_true] at hp
      have h1 : rest.filter p = [] := by
        rw [List.filter_eq_nil_iff]
        intro b hb
        intro hpb
        have : p a = true := hdc a b (ha b hb) hpb
        rw [hp] at this
        exact Bool.false_ne_true this
      have h2 : rest.filter (fun a => !p a) = rest := by
        rw [List.filter_eq_self]
        intro b hb
        rw [Bool.not_eq_true']
        by_contra hc
        rw [Bool.not_eq_false] at hc
        have : p a = true := hdc a b (ha b hb) hc
        rw [hp] at this
        exact Bool.false_ne_true this
      simp [List.takeWhile_cons, List.dropWhile_cons, List.filter_cons, hp,
        h1, h2]

lemma dropWhile_head_false {p : AlarmEntry → Bool} :
    ∀ {l : List AlarmEntry} {a : AlarmEntry} {rest : List AlarmEntry},
      l.dropWhile p = a :: rest → p a = false
  | [], a, rest, h => by simp at h
  | b :: t, a, rest, h => by
    by_cases hp : p b
    · rw [List.dropWhile_cons, if_pos hp] at h
      exact dropWhile_head_false h
    · rw [Bool.not_eq_true] at hp
      rw [List.dropWhile_cons] at h
      rw [hp] at h
      simp at h
      rw [h.1] at hp
      exact hp

lemma reprogram_spec {t : Timeval} {now : Timespec}
    (hne : tvDue t now = false) (hu : t.tv_usec < US_PER_S)
    (hn : now.tv_nsec < 1000000000) :
    (reprogram t now).1 * 1000000000 + (reprogram t now).2 =
        ((t.tv_sec * 1000000000 + t.tv_usec * NS_PER_US : Nat) : Int) -
          ((now.tv_sec * 1000000000 + now.tv_nsec : Nat) : Int) ∧
      0 ≤ (reprogram t now).1 ∧ 0 ≤ (reprogram t now).2 ∧
      (reprogram t now).2 < 1000000000 ∧
      1 ≤ (reprogram t now).1 * 1000000000 + (reprogram t now).2 := by
  simp only [tvDue, NS_PER_US, US_PER_S, decide_eq_false_iff_not, not_or,
    not_and, not_le, not_lt] at hne hu
  unfold reprogram
  simp only [NS_PER_US, US_PER_S]
  split
  · push_cast
    omega
  · push_cast
    omega

end EalAlarm

namespace EalAlarm

/- ### Cancel lemmas -/

lemma scanTail_list (cb arg tid : Nat) (l : List AlarmEntry) :
    (scanTail cb arg tid l).list = l.filter (keepPred cb arg) := by
  induction l with
  | nil => rfl
  | cons a rest ih =>
    by_cases hm : matchesEntry cb arg a
    · by_cases he : a.executing
      · by_cases hid : a.executing_id ≠ tid <;>
          simp [scanTail, List.filter_cons, keepPred, hm, he, hid, ih]
      · rw [Bool.not_eq_true] at he
        simp [scanTail, List.filter_cons, keepPred, hm, he, ih]
    · rw [Bool.not_eq_true] at hm
      simp [scanTail, List.filter_cons, keepPred, hm, ih]

lemma scanTail_count (cb arg tid : Nat) (l : List AlarmEntry) :
    (scanTail cb arg tid l).count = l.countP (remPred cb arg) := by
  induction l with
  | nil => rfl
  | cons a rest ih =>
    by_cases hm : matchesEntry cb arg a
    · by_cases he : a.executing
      · by_cases hid : a.executing_id ≠ tid <;>
          simp [scanTail, List.countP_cons, remPred, hm, he, hid, ih]
      · rw [Bool.not_eq_true] at he
        simp [scanTail, List.countP_cons, remPred, hm, he, ih]
    · rw [Bool.not_eq_true] at hm
      simp [scanTail, List.countP_cons, remPred, hm, ih]

lemma scanTail_err_iff (cb arg tid : Nat) (l : List AlarmEntry) :
    (scanTail cb arg tid l).err = true ↔ ∃ a ∈ l, selfExec cb arg tid a := by
  induction l with
  | nil => simp [scanTail]
  | cons a rest ih =>
    by_cases hm : matchesEntry cb arg a
    · by_cases he : a.executing
      · by_cases hid : a.executing_id ≠ tid
        · have hns : ¬ selfExec cb arg tid a := fun hs => hid hs.2.2
          simp [scanTail, hm, he, hid, ih, hns]
        · push_neg at hid
          have hs : selfExec cb arg tid a := ⟨hm, he, hid⟩
          simp [scanTail, hm, he, hid, hs]
      · rw [Bool.not_eq_true] at he
        have hns : ¬ selfExec cb arg tid a := by
          intro hs
          rw [hs.2.1] at he
          simp at he
        simp [scanTail, hm, he, ih, hns]
    · rw [Bool.not_eq_true] at hm
      have hns : ¬ selfExec cb arg tid a := by
        intro hs
        rw [hs.1] at hm
        simp at hm
      simp [scanTail, hm, ih, hns]

lemma scanTail_exec_iff (cb arg tid : Nat) (l : List AlarmEntry) :
    (scanTail cb arg tid l).executing ≠ 0 ↔
      ∃ a ∈ l, foreignExec cb arg tid a := by
  induction l with
  | nil => simp [scanTail]
  | cons a rest ih =>
    by_cases hm : matchesEntry cb arg a
    · by_cases he : a.executing
      · by_cases hid : a.executing_id ≠ tid
        · have hf : foreignExec cb arg tid a := ⟨hm, he, hid⟩
          simp [scanTail, hm, he, hid, hf]
        · push_neg at hid
          have hnf : ¬ foreignExec cb arg tid a := fun hf => hf.2.2 hid
          simp [scanTail, hm, he, hid, ih, hnf]
      · rw [Bool.not_eq_true] at he
        have hnf : ¬ foreignExec cb arg tid a := by
          intro hf
          rw [hf.2.1] at he
          simp at he
        simp [scanTail, hm, he, ih, hnf]
    · rw [Bool.not_eq_true] at hm
      have hnf : ¬ foreignExec cb arg tid a := by
        intro hf
        rw [hf.1] at hm
        simp at hm
      simp [scanTail, hm, ih, hnf]

end EalAlarm

namespace EalAlarm

lemma drainHead_subset {cb arg tid : Nat} :
    ∀ {l : List AlarmEntry} {x : AlarmEntry},
      x ∈ (drainHead cb arg tid l).list → x ∈ l
  | [], x, h => by simp [drainHead] at h
  | a :: rest, x, h => by
    by_cases hm : matchesEntry cb arg a
    · by_cases he : a.executing
      · by_cases hid : a.executing_id = tid <;>
        · simp [drainHead, hm, he, hid] at h
          exact List.mem_cons.mpr h
      · rw [Bool.not_eq_true] at he
        simp only [drainHead, hm, he, if_true, Bool.false_eq_true,
          if_false] at h
        exact List.mem_cons_of_mem a (drainHead_subset h)
    · rw [Bool.not_eq_true] at hm
      simp only [drainHead, hm, Bool.false_eq_true, if_false] at h
      exact h

lemma mem_drainHead_of_executing {cb arg tid : Nat} :
    ∀ {l : List AlarmEntry} {x : AlarmEntry}, x ∈ l → x.executing = true →
      x ∈ (drainHead cb arg tid l).list
  | [], x, hx, _ => by simp at hx
  | a :: rest, x, hx, hex => by
    by_cases hm : matchesEntry cb arg a
    · by_cases he : a.executing
      · by_cases hid : a.executing_id = tid <;>
        · simp [drainHead, hm, he, hid]
          simpa using hx
      · rw [Bool.not_eq_true] at he
        have hxr : x ∈ rest := by
          rcases List.mem_cons.mp hx with hx | hx
          · rw [hx] at hex
            rw [hex] at he
            simp at he
          · exact hx
        simp only [drainHead, hm, he, if_true, Bool.false_eq_true, if_false]
        exact mem_drainHead_of_executing hxr hex
    · rw [Bool.not_eq_true] at hm
      simp only [drainHead, hm, Bool.false_eq_true, if_false]
      exact hx

lemma drainHead_err_imp {cb arg tid : Nat} :
    ∀ {l : List AlarmEntry}, (drainHead cb arg tid l).err = true →
      ∃ a ∈ (drainHead cb arg tid l).list, selfExec cb arg tid a
  | [], h => by simp [drainHead] at h
  | a :: rest, h => by
    by_cases hm : matchesEntry cb arg a
    · by_cases he : a.executing
      · by_cases hid : a.executing_id = tid
        · refine ⟨a, ?_, hm, he, hid⟩
          simp [drainHead, hm, he, hid]
        · simp [drainHead, hm, he, hid] at h
      · rw [Bool.not_eq_true] at he
        simp only [drainHead, hm, he, if_true, Bool.false_eq_true,
          if_false] at h ⊢
        exact drainHead_err_imp h
    · rw [Bool.not_eq_true] at hm
      simp [drainHead, hm] at h

lemma drainHead_exec_imp {cb arg tid : Nat} :
    ∀ {l : List AlarmEntry}, (drainHead cb arg tid l).executing ≠ 0 →
      ∃ a ∈ (drainHead cb arg tid l).list, foreignExec cb arg tid a
  | [], h => by simp [drainHead] at h
  | a :: rest, h => by
    by_cases hm : matchesEntry cb arg a
    · by_cases he : a.executing
      · by_cases hid : a.executing_id = tid
        · simp [drainHead, hm, he, hid] at h
        · refine ⟨a, ?_, hm, he, hid⟩
          simp [drainHead, hm, he, hid]
      · rw [Bool.not_eq_true] at he
        simp only [drainHead, hm, he, if_true, Bool.false_eq_true,
          if_false] at h ⊢
        exact drainHead_exec_imp h
    · rw [Bool.not_eq_true] at hm
      simp [drainHead, hm] at h

lemma drainHead_filter (cb arg tid : Nat) :
    ∀ l : List AlarmEntry,
      (drainHead cb arg tid l).list.filter (keepPred cb arg) =
        l.filter (keepPred cb arg)
  | [] => rfl
  | a :: rest => by
    by_cases hm : matchesEntry cb arg a
    · by_cases he : a.executing
      · by_cases hid : a.executing_id = tid <;>
          simp [drainHead, hm, he, hid]
      · rw [Bool.not_eq_true] at he
        have hk : keepPred cb arg a = false := by
          simp [keepPred, hm, he]
        simp only [drainHead, hm, he, if_true, Bool.false_eq_true, if_false]
        rw [drainHead_filter cb arg tid rest, List.filter_cons, hk]
        simp
    · rw [Bool.not_eq_true] at hm
      simp [drainHead, hm]

lemma drainHead_count (cb arg tid : Nat) :
    ∀ l : List AlarmEntry,
      (drainHead cb arg tid l).count +
          (drainHead cb arg tid l).list.countP (remPred cb arg) =
        l.countP (remPred cb arg)
  | [] => rfl
  | a :: rest => by
    by_cases hm : matchesEntry cb arg a
    · by_cases he : a.executing
      · by_cases hid : a.executing_id = tid <;>
          simp [drainHead, hm, he, hid]
      · rw [Bool.not_eq_true] at he
        have hr : remPred cb arg a = true := by
          simp [remPred, hm, he]
        simp only [drainHead, hm, he, if_true, Bool.false_eq_true, if_false]
        rw [List.countP_cons, hr]
        have h2 := drainHead_count cb arg tid rest
        simp only [if_true]
        omega
    · rw [Bool.not_eq_true] at hm
      simp [drainHead, hm]

end EalAlarm

namespace EalAlarm

lemma cancelPass_list (cb arg tid : Nat) (l : List AlarmEntry) :
    (cancelPass cb arg tid l).list = l.filter (keepPred cb arg) := by
  unfold cancelPass
  rw [scanTail_list, drainHead_filter]

lemma cancelPass_count (cb arg tid : Nat) (l : List AlarmEntry) :
    (cancelPass cb arg tid l).count = l.countP (remPred cb arg) := by
  have h1 := scanTail_count cb arg tid (drainHead cb arg tid l).list
  have h2 := drainHead_count cb arg tid l
  simp only [cancelPass]
  omega

lemma cancelPass_err_iff (cb arg tid : Nat) (l : List AlarmEntry) :
    (cancelPass cb arg tid l).err = true ↔ ∃ a ∈ l, selfExec cb arg tid a := by
  unfold cancelPass
  rw [Bool.or_eq_true, scanTail_err_iff]
  constructor
  · rintro (h | ⟨a, ha, hs⟩)
    · obtain ⟨a, ha, hs⟩ := drainHead_err_imp h
      exact ⟨a, drainHead_subset ha, hs⟩
    · exact ⟨a, drainHead_subset ha, hs⟩
  · rintro ⟨a, ha, hs⟩
    exact Or.inr ⟨a, mem_drainHead_of_executing ha hs.2.1, hs⟩

lemma cancelPass_exec_iff (cb arg tid : Nat) (l : List AlarmEntry) :
    (cancelPass cb arg tid l).executing ≠ 0 ↔
      ∃ a ∈ l, foreignExec cb arg tid a := by
  constructor
  · intro h
    simp only [cancelPass] at h
    by_cases hA : (drainHead cb arg tid l).executing = 0
    · have hB :
          (scanTail cb arg tid (drainHead cb arg tid l).list).executing ≠ 0 :=
        by omega
      obtain ⟨a, ha, hf⟩ := (scanTail_exec_iff cb arg tid _).mp hB
      exact ⟨a, drainHead_subset ha, hf⟩
    · obtain ⟨a, ha, hf⟩ := drainHead_exec_imp hA
      exact ⟨a, drainHead_subset ha, hf⟩
  · rintro ⟨a, ha, hf⟩
    have hB :
        (scanTail cb arg tid (drainHead cb arg tid l).list).executing ≠ 0 :=
      (scanTail_exec_iff cb arg tid _).mpr
        ⟨a, mem_drainHead_of_executing ha hf.2.1, hf⟩
    simp only [cancelPass]
    omega

end EalAlarm

namespace EalAlarm

lemma keepPred_eq_not_remPred (cb arg : Nat) (a : AlarmEntry) :
    keepPred cb arg a = !remPred cb arg a := rfl

lemma countP_remPred_filter (cb arg : Nat) (l : List AlarmEntry) :
    (l.filter (keepPred cb arg)).countP (remPred cb arg) = 0 := by
  rw [List.countP_eq_zero]
  intro a ha
  have hk := (List.mem_filter.mp ha).2
  rw [keepPred_eq_not_remPred] at hk
  rw [Bool.not_eq_true'] at hk
  simp [hk]

lemma filter_keepPred_idem (cb arg : Nat) (l : List AlarmEntry) :
    (l.filter (keepPred cb arg)).filter (keepPred cb arg) =
      l.filter (keepPred cb arg) :=
  List.filter_eq_self.mpr fun _ hx => (List.mem_filter.mp hx).2

lemma cancelLoop_spec (cb arg tid : Nat) :
    ∀ (fuel : Nat) (l : List AlarmEntry) (count : Nat) (err : Bool)
      (lf : List AlarmEntry) (c : Nat) (e : Bool),
      cancelLoop cb arg tid fuel l count err = some (lf, c, e) →
      lf = l.filter (keepPred cb arg) ∧
        c = count + l.countP (remPred cb arg) ∧
        e = (err || (cancelPass cb arg tid l).err)
  | 0, l, count, err, lf, c, e, h => by simp [cancelLoop] at h
  | fuel + 1, l, count, err, lf, c, e, h => by
    by_cases hex : (cancelPass cb arg tid l).executing = 0
    · simp only [cancelLoop, hex, if_true, if_pos, Option.some.injEq,
        Prod.mk.injEq] at h
      obtain ⟨h1, h2, h3⟩ := h
      exact ⟨h1.symm.trans (cancelPass_list cb arg tid l),
        by rw [← h2, cancelPass_count],
        by rw [← h3]⟩
    · simp only [cancelLoop, hex, if_false, if_neg] at h
      obtain ⟨h1, h2, h3⟩ := cancelLoop_spec cb arg tid fuel _ _ _ _ _ _ h
      rw [cancelPass_list] at h1
      rw [filter_keepPred_idem] at h1
      refine ⟨h1, ?_, ?_⟩
      · rw [cancelPass_list, countP_remPred_filter] at h2
        rw [cancelPass_count] at h2
        omega
      · have hp2 : (cancelPass cb arg tid
            (cancelPass cb arg tid l).list).err = true →
            (cancelPass cb arg tid l).err = true := by
          intro hh
          obtain ⟨a, ha, hs⟩ :=
            (cancelPass_err_iff cb arg tid _).mp hh
          rw [cancelPass_list] at ha
          exact (cancelPass_err_iff cb arg tid l).mpr
            ⟨a, (List.mem_filter.mp ha).1, hs⟩
        rw [h3]
        by_cases hq : (cancelPass cb arg tid
            (cancelPass cb arg tid l).list).err = true
        · rw [hq, hp2 hq]
          simp
        · rw [Bool.not_eq_true] at hq
          rw [hq]
          simp

end EalAlarm

namespace EalAlarm

lemma matchesEntry_wildcard (cb : Nat) (a : AlarmEntry) :
    matchesEntry cb WILDCARD a = decide (a.cb_fn = cb) := by
  by_cases h : a.cb_fn = cb
  · simp [matchesEntry, h]
  · simp [matchesEntry, h, Ne.symm h]

/-- Claim C5: rte_eal_alarm_set returns -EINVAL exactly when us < 1, or
us exceeds UINT64_MAX - US_PER_S, or the callback is null; in that case
the engine state is unchanged (no allocation, no insertion, no flag or
timer change).  The hypothesis restricts the timerfd_settime oracle to
its two possible return values, 0 and -1. -/
theorem C5_set_invalid_iff (us cb_fn cb_arg : Nat) (now : Timespec)
    (allocOk regOk : Bool) (r : Int) (st : AlarmState)
    (hr : r = 0 ∨ r = -1) :
    ((rte_eal_alarm_set us cb_fn cb_arg now allocOk regOk r st).2 =
        -(EINVAL : Int) ↔
      (us < 1 ∨ us > UINT64_MAX - US_PER_S ∨ cb_fn = 0)) ∧
      ((us < 1 ∨ us > UINT64_MAX - US_PER_S ∨ cb_fn = 0) →
        (rte_eal_alarm_set us cb_fn cb_arg now allocOk regOk r st).1 = st) := by
  by_cases hc : us < 1 ∨ us > UINT64_MAX - US_PER_S ∨ cb_fn = 0
  · simp only [rte_eal_alarm_set, if_pos hc]
    exact ⟨iff_of_true trivial hc, fun _ => trivial⟩
  · simp only [rte_eal_alarm_set, if_neg hc]
    refine ⟨⟨?_, fun h => absurd h hc⟩, fun h => absurd h hc⟩
    intro hret
    by_cases ha : allocOk = false
    · rw [if_pos ha] at hret
      simp only [EINVAL, ENOMEM] at hret
      omega
    · rw [if_neg ha] at hret
      simp only [EINVAL] at hret
      split at hret <;> omega

/-- Witness for C5 at a concrete invalid input: us = 0 forces -EINVAL
and leaves the empty state unchanged. -/
theorem C5_set_invalid_iff_witness :
    ((rte_eal_alarm_set 0 1 0 ⟨0, 0⟩ true true 0 ⟨[], false⟩).2 =
        -(EINVAL : Int) ↔
      (0 < 1 ∨ 0 > UINT64_MAX - US_PER_S ∨ (1 : Nat) = 0)) ∧
      ((0 < 1 ∨ 0 > UINT64_MAX - US_PER_S ∨ (1 : Nat) = 0) →
        (rte_eal_alarm_set 0 1 0 ⟨0, 0⟩ true true 0 ⟨[], false⟩).1 =
          ⟨[], false⟩) :=
  C5_set_invalid_iff 0 1 0 ⟨0, 0⟩ true true 0 ⟨[], false⟩ (Or.inl rfl)

/-- Claim C6: for an admitted set call the stored deadline satisfies
sec * 10^6 + usec = now_sec * 10^6 + now_nsec/1000 + us with
usec < 10^6, and under the admission bound the microsecond sum
now_nsec/1000 + us stays below 2^64, so the uint64_t addition does not
overflow. -/
theorem C6_deadline_arithmetic (now : Timespec) (us : Nat)
    (hn : now.tv_nsec < 1000000000) (h1 : 1 ≤ us)
    (h2 : us ≤ UINT64_MAX - US_PER_S) :
    now.tv_nsec / NS_PER_US + us < U64_MOD ∧
      (alarmTime now us).tv_sec * US_PER_S + (alarmTime now us).tv_usec =
        now.tv_sec * US_PER_S + (now.tv_nsec / NS_PER_US + us) ∧
      (alarmTime now us).tv_usec < US_PER_S := by
  simp only [alarmTime, NS_PER_US, US_PER_S, UINT64_MAX, U64_MOD] at *
  omega

/-- Witness for C6 at now = (5 s, 999999999 ns), us = 1000. -/
theorem C6_deadline_arithmetic_witness :
    (5 : Nat) * 1000 = 5000 ∧
      ((⟨5, 999999999⟩ : Timespec).tv_nsec / NS_PER_US + 1000 < U64_MOD ∧
        (alarmTime ⟨5, 999999999⟩ 1000).tv_sec * US_PER_S +
            (alarmTime ⟨5, 999999999⟩ 1000).tv_usec =
          (⟨5, 999999999⟩ : Timespec).tv_sec * US_PER_S +
            ((⟨5, 999999999⟩ : Timespec).tv_nsec / NS_PER_US + 1000) ∧
        (alarmTime ⟨5, 999999999⟩ 1000).tv_usec < US_PER_S) :=
  ⟨rfl, C6_deadline_arithmetic ⟨5, 999999999⟩ 1000 (by decide) (by decide)
    (by decide)⟩

/-- Claim C7: a successful set inserts the new record at the unique
sort-preserving position, after existing records with an equal or
earlier deadline and before the first strictly later one, so sortedness
of the pending set is preserved by every insertion. -/
theorem C7_insert_sorted_position (na : AlarmEntry) (l : List AlarmEntry)
    (hs : sortedAlarms l) :
    sortedAlarms (insertAlarm na l) ∧
      insertAlarm na l =
        l.takeWhile (fun a => !tvGt a.time na.time) ++
          na :: l.dropWhile (fun a => !tvGt a.time na.time) :=
  ⟨insertAlarm_sorted na hs, insertAlarm_eq na l⟩

/-- Witness for C7: inserting a deadline-2 record into a sorted list
that already holds an equal deadline places it after that entry. -/
theorem C7_insert_sorted_position_witness :
    sortedAlarms (insertAlarm ⟨⟨2, 0⟩, 9, 9, false, 0⟩
        [⟨⟨2, 0⟩, 1, 1, false, 0⟩, ⟨⟨3, 0⟩, 2, 2, false, 0⟩]) ∧
      insertAlarm ⟨⟨2, 0⟩, 9, 9, false, 0⟩
          [⟨⟨2, 0⟩, 1, 1, false, 0⟩, ⟨⟨3, 0⟩, 2, 2, false, 0⟩] =
        [⟨⟨2, 0⟩, 1, 1, false, 0⟩, ⟨⟨3, 0⟩, 2, 2, false, 0⟩].takeWhile
            (fun a => !tvGt a.time (⟨2, 0⟩ : Timeval)) ++
          ⟨⟨2, 0⟩, 9, 9, false, 0⟩ ::
            [⟨⟨2, 0⟩, 1, 1, false, 0⟩, ⟨⟨3, 0⟩, 2, 2, false, 0⟩].dropWhile
              (fun a => !tvGt a.time (⟨2, 0⟩ : Timeval)) :=
  C7_insert_sorted_position ⟨⟨2, 0⟩, 9, 9, false, 0⟩
    [⟨⟨2, 0⟩, 1, 1, false, 0⟩, ⟨⟨3, 0⟩, 2, 2, false, 0⟩] (by decide)

/-- Claim C9: when the demultiplexer registration attempted inside set
fails (regOk = false) on a state whose handler is not yet registered,
the alarm is still inserted, handler_registered stays false (so a later
set retries), and the return value is the same as it would have been
had registration succeeded. -/
theorem C9_registration_failure_nonfatal (us cb_fn cb_arg : Nat)
    (now : Timespec) (r : Int) (st : AlarmState)
    (hvalid : ¬(us < 1 ∨ us > UINT64_MAX - US_PER_S ∨ cb_fn = 0))
    (hreg : st.handler_registered = false) :
    mkAlarm now us cb_fn cb_arg ∈
        (rte_eal_alarm_set us cb_fn cb_arg now true false r st).1.alarm_list ∧
      (rte_eal_alarm_set us cb_fn cb_arg now true false r
          st).1.handler_registered = false ∧
      (rte_eal_alarm_set us cb_fn cb_arg now true false r st).2 =
        (rte_eal_alarm_set us cb_fn cb_arg now true true r st).2 := by
  simp only [rte_eal_alarm_set, if_neg hvalid]
  refine ⟨?_, ?_, ?_⟩
  · simp [mem_insertAlarm]
  · simp [hreg]
  · simp

/-- Witness for C9: a valid set call on the empty unregistered state
with failing registration. -/
theorem C9_registration_failure_nonfatal_witness :
    mkAlarm ⟨5, 100⟩ 1000 1 7 ∈
        (rte_eal_alarm_set 1000 1 7 ⟨5, 100⟩ true false 0
          ⟨[], false⟩).1.alarm_list ∧
      (rte_eal_alarm_set 1000 1 7 ⟨5, 100⟩ true false 0
          ⟨[], false⟩).1.handler_registered = false ∧
      (rte_eal_alarm_set 1000 1 7 ⟨5, 100⟩ true false 0 ⟨[], false⟩).2 =
        (rte_eal_alarm_set 1000 1 7 ⟨5, 100⟩ true true 0 ⟨[], false⟩).2 :=
  C9_registration_failure_nonfatal 1000 1 7 ⟨5, 100⟩ 0 ⟨[], false⟩
    (by decide) rfl

/-- Claim C10: the concrete value (void *)-1 (all-ones, WILDCARD) is the
cancel wildcard: a cancel whose argument is that value matches every
pending entry of the given callback regardless of the stored argument —
including entries whose stored argument is itself (void *)-1 — so no
cancel naming that value can do an exact-argument match; its pass
removes exactly the idle entries of the callback. -/
theorem C10_wildcard_semantics (cb tid : Nat) (l : List AlarmEntry) :
    (∀ a : AlarmEntry, matchesEntry cb WILDCARD a = true ↔ a.cb_fn = cb) ∧
      (∀ arg : Nat, arg = WILDCARD →
        ∀ a : AlarmEntry, matchesEntry cb arg a = true ↔ a.cb_fn = cb) ∧
      (cancelPass cb WILDCARD tid l).list =
        l.filter (fun a => !(decide (a.cb_fn = cb) && !a.executing)) ∧
      (cancelPass cb WILDCARD tid l).count =
        l.countP (fun a => decide (a.cb_fn = cb) && !a.executing) := by
  have hk : keepPred cb WILDCARD =
      fun a => !(decide (a.cb_fn = cb) && !a.executing) := by
    funext a
    rw [keepPred, matchesEntry_wildcard]
  have hrm : remPred cb WILDCARD =
      fun a => decide (a.cb_fn = cb) && !a.executing := by
    funext a
    rw [remPred, matchesEntry_wildcard]
  refine ⟨?_, ?_, ?_, ?_⟩
  · intro a
    rw [matchesEntry_wildcard]
    simp
  · rintro arg rfl a
    rw [matchesEntry_wildcard]
    simp
  · rw [cancelPass_list, hk]
  · rw [cancelPass_count, hrm]

end EalAlarm

namespace EalAlarm

/-- Claim C1 counterexample: with an empty pending set and a non-null
callback, rte_eal_alarm_cancel removes nothing and returns 0 (the
count) with rte_errno = ENOENT — not the -1 return the claim states. -/
theorem C1_counterexample :
    rte_eal_alarm_cancel 1 1 0 [] 1 = some ([], 0, some ENOENT) ∧
      (0 : Int) ≠ -1 := by
  refine ⟨?_, by decide⟩
  decide

/-- Claim C1 as amended: when a cancel call with a non-null callback
removes no entries (no matching idle entry), it returns 0 — the count,
not -1 — with rte_errno = EINPROGRESS when a matching entry was
executing on the calling thread and rte_errno = ENOENT otherwise; -1 is
returned only for a null callback.  The quiescence hypothesis (no
matching entry executing on another thread) is what makes the do-while
loop exit after its single pass. -/
theorem C1_cancel_zero_removals (cb arg tid : Nat) (l : List AlarmEntry)
    (hcb : cb ≠ 0)
    (hq : (cancelPass cb arg tid l).executing = 0)
    (hc : l.countP (remPred cb arg) = 0) :
    rte_eal_alarm_cancel cb arg tid l 1 =
      some (l.filter (keepPred cb arg), 0,
        if ∃ a ∈ l, selfExec cb arg tid a then some EINPROGRESS
        else some ENOENT) := by
  have hcount : (cancelPass cb arg tid l).count = 0 := by
    rw [cancelPass_count]; exact hc
  have hlist := cancelPass_list cb arg tid l
  rw [rte_eal_alarm_cancel, if_neg hcb]
  have hloop : cancelLoop cb arg tid 1 l 0 false =
      some ((cancelPass cb arg tid l).list, (cancelPass cb arg tid l).count,
        (cancelPass cb arg tid l).err) := by
    simp [cancelLoop, hq]
  rw [hloop]
  by_cases hs : ∃ a ∈ l, selfExec cb arg tid a
  · have herr : (cancelPass cb arg tid l).err = true :=
      (cancelPass_err_iff cb arg tid l).mpr hs
    simp [hlist, hcount, herr, hs, EINPROGRESS]
  · have herr : (cancelPass cb arg tid l).err = false := by
      rw [← Bool.not_eq_true, cancelPass_err_iff]
      exact hs
    simp [hlist, hcount, herr, hs, ENOENT]

/-- Witness for the amended C1: a single matching entry executing on
the calling thread 5 yields return 0 with rte_errno = EINPROGRESS. -/
theorem C1_cancel_zero_removals_witness :
    rte_eal_alarm_cancel 1 1 5 [⟨⟨1, 0⟩, 1, 1, true, 5⟩] 1 =
      some ([⟨⟨1, 0⟩, 1, 1, true, 5⟩].filter (keepPred 1 1), 0,
        if ∃ a ∈ [(⟨⟨1, 0⟩, 1, 1, true, 5⟩ : AlarmEntry)], selfExec 1 1 5 a
        then some EINPROGRESS else some ENOENT) :=
  C1_cancel_zero_removals 1 1 5 [⟨⟨1, 0⟩, 1, 1, true, 5⟩] (by decide)
    (by decide) (by decide)

/-- Claim C2: whenever a cancel call with non-null callback returns,
the final pending set is exactly the original minus the matching idle
entries (callback equal, argument equal or wildcard, executing false),
the return value is the number of entries so removed, and every
non-matching or executing entry is still present. -/
theorem C2_cancel_removes_exactly (cb arg tid fuel : Nat)
    (l lf : List AlarmEntry) (ret : Int) (e : Option Nat) (hcb : cb ≠ 0)
    (hres : rte_eal_alarm_cancel cb arg tid l fuel = some (lf, ret, e)) :
    lf = l.filter (keepPred cb arg) ∧
      ret = (l.countP (remPred cb arg) : Int) ∧
      ∀ a ∈ l, (matchesEntry cb arg a = false ∨ a.executing = true) →
        a ∈ lf := by
  rw [rte_eal_alarm_cancel, if_neg hcb] at hres
  rcases hloop : cancelLoop cb arg tid fuel l 0 false with _ | ⟨⟨l2, c2, e2⟩⟩
  · rw [hloop] at hres
    simp at hres
  · rw [hloop] at hres
    simp only [Option.some.injEq, Prod.mk.injEq] at hres
    obtain ⟨hl, hr, _⟩ := hres
    obtain ⟨h1, h2, _⟩ := cancelLoop_spec cb arg tid fuel l 0 false l2 c2 e2 hloop
    have hlf : lf = l.filter (keepPred cb arg) := by rw [← hl, h1]
    refine ⟨hlf, ?_, ?_⟩
    · rw [← hr, h2]
      simp
    · intro a ha hcond
      rw [hlf]
      refine List.mem_filter.mpr ⟨ha, ?_⟩
      rcases hcond with hm | he
      · simp [keepPred, hm]
      · simp [keepPred, he]

/-- Witness for C2: cancelling (cb 1, arg 5) on a two-entry set removes
the matching idle entry and keeps the other. -/
theorem C2_cancel_removes_exactly_witness :
    [(⟨⟨2, 0⟩, 2, 5, false, 0⟩ : AlarmEntry)] =
        [⟨⟨1, 0⟩, 1, 5, false, 0⟩,
          (⟨⟨2, 0⟩, 2, 5, false, 0⟩ : AlarmEntry)].filter (keepPred 1 5) ∧
      (1 : Int) = ([⟨⟨1, 0⟩, 1, 5, false, 0⟩,
          (⟨⟨2, 0⟩, 2, 5, false, 0⟩ : AlarmEntry)].countP (remPred 1 5) : Int) ∧
      ∀ a ∈ [⟨⟨1, 0⟩, 1, 5, false, 0⟩,
          (⟨⟨2, 0⟩, 2, 5, false, 0⟩ : AlarmEntry)],
        (matchesEntry 1 5 a = false ∨ a.executing = true) →
          a ∈ [(⟨⟨2, 0⟩, 2, 5, false, 0⟩ : AlarmEntry)] :=
  C2_cancel_removes_exactly 1 5 0 1
    [⟨⟨1, 0⟩, 1, 5, false, 0⟩, ⟨⟨2, 0⟩, 2, 5, false, 0⟩]
    [⟨⟨2, 0⟩, 2, 5, false, 0⟩] 1 none (by decide) (by decide)

end EalAlarm

namespace EalAlarm

/-- Claim C4: dispatch fires exactly the due entries — those whose
deadline is at or before the clock reading — in list (head) order, each
marked executing with the dispatch thread as executor and invoked with
its stored callback and argument, and then removed; entries with a
future deadline are neither fired nor removed; since the pending set is
sorted, consecutively dispatched alarms have non-decreasing
deadlines. -/
theorem C4_dispatch_in_order (now : Timespec) (tid : Nat)
    (l : List AlarmEntry) (hs : sortedAlarms l) :
    (eal_alarm_callback now tid l).1 =
        (l.filter (fun a => tvDue a.time now)).map (markExecuting tid) ∧
      (eal_alarm_callback now tid l).2.1 =
        l.filter (fun a => !tvDue a.time now) ∧
      (eal_alarm_callback now tid l).1.Pairwise entLe ∧
      ∀ a ∈ (eal_alarm_callback now tid l).1,
        a.executing = true ∧ a.executing_id = tid := by
  have hdc : ∀ a b : AlarmEntry, entLe a b → tvDue b.time now = true →
      tvDue a.time now = true := fun a b hab hb => tvDue_mono hab hb
  have htf := sorted_takeWhile_dropWhile_filter hdc hs
  have h1 : (eal_alarm_callback now tid l).1 =
      (l.takeWhile (fun a => tvDue a.time now)).map (markExecuting tid) := by
    show (drainDue now tid l).1 = _
    rw [drainDue_eq]
  have h2 : (eal_alarm_callback now tid l).2.1 =
      l.dropWhile (fun a => tvDue a.time now) := by
    show (drainDue now tid l).2 = _
    rw [drainDue_eq]
  refine ⟨?_, ?_, ?_, ?_⟩
  · rw [h1, htf.1]
  · rw [h2, htf.2]
  · rw [h1, List.pairwise_map]
    have hp : (l.takeWhile (fun a => tvDue a.time now)).Pairwise entLe :=
      List.Pairwise.sublist (List.takeWhile_sublist _) hs
    exact hp.imp (fun h => h)
  · intro a ha
    rw [h1] at ha
    obtain ⟨b, _, rfl⟩ := List.mem_map.mp ha
    exact ⟨rfl, rfl⟩

/-- Witness for C4 on a three-entry sorted set at now = (10 s, 500 ns):
the first two entries are due and fire in order, the third stays. -/
theorem C4_dispatch_in_order_witness :
    (eal_alarm_callback ⟨10, 500⟩ 3
          [⟨⟨9, 0⟩, 1, 1, false, 0⟩, ⟨⟨10, 0⟩, 2, 2, false, 0⟩,
            ⟨⟨11, 0⟩, 3, 3, false, 0⟩]).1 =
        ([⟨⟨9, 0⟩, 1, 1, false, 0⟩, ⟨⟨10, 0⟩, 2, 2, false, 0⟩,
            (⟨⟨11, 0⟩, 3, 3, false, 0⟩ : AlarmEntry)].filter
          (fun a => tvDue a.time ⟨10, 500⟩)).map (markExecuting 3) ∧
      (eal_alarm_callback ⟨10, 500⟩ 3
          [⟨⟨9, 0⟩, 1, 1, false, 0⟩, ⟨⟨10, 0⟩, 2, 2, false, 0⟩,
            ⟨⟨11, 0⟩, 3, 3, false, 0⟩]).2.1 =
        [⟨⟨9, 0⟩, 1, 1, false, 0⟩, ⟨⟨10, 0⟩, 2, 2, false, 0⟩,
            (⟨⟨11, 0⟩, 3, 3, false, 0⟩ : AlarmEntry)].filter
          (fun a => !tvDue a.time ⟨10, 500⟩) ∧
      (eal_alarm_callback ⟨10, 500⟩ 3
          [⟨⟨9, 0⟩, 1, 1, false, 0⟩, ⟨⟨10, 0⟩, 2, 2, false, 0⟩,
            ⟨⟨11, 0⟩, 3, 3, false, 0⟩]).1.Pairwise entLe ∧
      ∀ a ∈ (eal_alarm_callback ⟨10, 500⟩ 3
          [⟨⟨9, 0⟩, 1, 1, false, 0⟩, ⟨⟨10, 0⟩, 2, 2, false, 0⟩,
            ⟨⟨11, 0⟩, 3, 3, false, 0⟩]).1,
        a.executing = true ∧ a.executing_id = 3 :=
  C4_dispatch_in_order ⟨10, 500⟩ 3
    [⟨⟨9, 0⟩, 1, 1, false, 0⟩, ⟨⟨10, 0⟩, 2, 2, false, 0⟩,
      ⟨⟨11, 0⟩, 3, 3, false, 0⟩] (by decide)

/-- Claim C3: when dispatch finishes draining and the set is non-empty,
the value written to the timer fd is the head deadline minus now,
normalized to seconds plus a nanosecond part in [0, 10^9), and it is
strictly positive (at least one nanosecond) — never zero or
negative. -/
theorem C3_reprogram_interval (now : Timespec) (tid : Nat)
    (l rest : List AlarmEntry) (hd : AlarmEntry)
    (hw : ∀ a ∈ l, a.time.tv_usec < US_PER_S)
    (hn : now.tv_nsec < 1000000000)
    (hrem : (eal_alarm_callback now tid l).2.1 = hd :: rest) :
    (eal_alarm_callback now tid l).2.2 = some (reprogram hd.time now) ∧
      (reprogram hd.time now).1 * 1000000000 + (reprogram hd.time now).2 =
        ((hd.time.tv_sec * 1000000000 + hd.time.tv_usec * NS_PER_US :
            Nat) : Int) -
          ((now.tv_sec * 1000000000 + now.tv_nsec : Nat) : Int) ∧
      0 ≤ (reprogram hd.time now).1 ∧ 0 ≤ (reprogram hd.time now).2 ∧
      (reprogram hd.time now).2 < 1000000000 ∧
      1 ≤ (reprogram hd.time now).1 * 1000000000 +
        (reprogram hd.time now).2 := by
  have hdd : (drainDue now tid l).2 = hd :: rest := hrem
  have hnd : tvDue hd.time now = false := by
    rw [drainDue_eq] at hdd
    exact dropWhile_head_false hdd
  have hmem : hd ∈ l := by
    rw [drainDue_eq] at hdd
    have hdd2 : l.dropWhile (fun a => tvDue a.time now) = hd :: rest := hdd
    have hsub : List.Sublist (l.dropWhile (fun a => tvDue a.time now)) l :=
      List.dropWhile_sublist _
    refine hsub.subset ?_
    rw [hdd2]
    exact List.mem_cons_self hd rest
  have hu : hd.time.tv_usec < US_PER_S := hw hd hmem
  have h22 : (eal_alarm_callback now tid l).2.2 =
      some (reprogram hd.time now) := by
    simp only [eal_alarm_callback]
    rw [hdd]
  obtain ⟨p1, p2, p3, p4, p5⟩ := reprogram_spec hnd hu hn
  exact ⟨h22, p1, p2, p3, p4, p5⟩

/-- Witness for C3: one pending entry at 11 s with now = (10 s, 500 ns)
yields the interval (0 s, 999999500 ns). -/
theorem C3_reprogram_interval_witness :
    (eal_alarm_callback ⟨10, 500⟩ 3 [⟨⟨11, 0⟩, 1, 1, false, 0⟩]).2.2 =
        some (reprogram (⟨11, 0⟩ : Timeval) ⟨10, 500⟩) ∧
      (reprogram (⟨11, 0⟩ : Timeval) ⟨10, 500⟩).1 * 1000000000 +
          (reprogram (⟨11, 0⟩ : Timeval) ⟨10, 500⟩).2 =
        (((⟨11, 0⟩ : Timeval).tv_sec * 1000000000 +
            (⟨11, 0⟩ : Timeval).tv_usec * NS_PER_US : Nat) : Int) -
          (((⟨10, 500⟩ : Timespec).tv_sec * 1000000000 +
            (⟨10, 500⟩ : Timespec).tv_nsec : Nat) : Int) ∧
      0 ≤ (reprogram (⟨11, 0⟩ : Timeval) ⟨10, 500⟩).1 ∧
      0 ≤ (reprogram (⟨11, 0⟩ : Timeval) ⟨10, 500⟩).2 ∧
      (reprogram (⟨11, 0⟩ : Timeval) ⟨10, 500⟩).2 < 1000000000 ∧
      1 ≤ (reprogram (⟨11, 0⟩ : Timeval) ⟨10, 500⟩).1 * 1000000000 +
        (reprogram (⟨11, 0⟩ : Timeval) ⟨10, 500⟩).2 :=
  C3_reprogram_interval ⟨10, 500⟩ 3 [⟨⟨11, 0⟩, 1, 1, false, 0⟩] []
    ⟨⟨11, 0⟩, 1, 1, false, 0⟩ (by decide) (by decide) (by decide)

/-- Claim C8: when every matching executing entry is being run by the
calling thread itself, the executing counter of the pass is 0, so the
do-while loop of rte_eal_alarm_cancel finishes after exactly one pass
(fuel 1 suffices), and if such a matching running entry exists the pass
sets err = EINPROGRESS; for any list the loop repeats only when some
matching entry is executing on a different thread. -/
theorem C8_self_cancel_one_pass (cb arg tid : Nat)
    (l l2 : List AlarmEntry)
    (hself : ∀ a ∈ l, matchesEntry cb arg a = true → a.executing = true →
      a.executing_id = tid) :
    (cancelPass cb arg tid l).executing = 0 ∧
      cancelLoop cb arg tid 1 l 0 false =
        some ((cancelPass cb arg tid l).list,
          (cancelPass cb arg tid l).count, (cancelPass cb arg tid l).err) ∧
      ((∃ a ∈ l, matchesEntry cb arg a = true ∧ a.executing = true) →
        (cancelPass cb arg tid l).err = true) ∧
      ((cancelPass cb arg tid l2).executing ≠ 0 ↔
        ∃ a ∈ l2, foreignExec cb arg tid a) := by
  have h0 : (cancelPass cb arg tid l).executing = 0 := by
    by_contra hne
    obtain ⟨a, ha, hf⟩ := (cancelPass_exec_iff cb arg tid l).mp hne
    exact hf.2.2 (hself a ha hf.1 hf.2.1)
  refine ⟨h0, ?_, ?_, cancelPass_exec_iff cb arg tid l2⟩
  · simp [cancelLoop, h0]
  · rintro ⟨a, ha, hm, he⟩
    exact (cancelPass_err_iff cb arg tid l).mpr
      ⟨a, ha, hm, he, hself a ha hm he⟩

/-- Witness for C8: a single entry of callback 1 executing on the
calling thread 5. -/
theorem C8_self_cancel_one_pass_witness :
    (cancelPass 1 1 5 [⟨⟨1, 0⟩, 1, 1, true, 5⟩]).executing = 0 ∧
      cancelLoop 1 1 5 1 [⟨⟨1, 0⟩, 1, 1, true, 5⟩] 0 false =
        some ((cancelPass 1 1 5 [⟨⟨1, 0⟩, 1, 1, true, 5⟩]).list,
          (cancelPass 1 1 5 [⟨⟨1, 0⟩, 1, 1, true, 5⟩]).count,
          (cancelPass 1 1 5 [⟨⟨1, 0⟩, 1, 1, true, 5⟩]).err) ∧
      ((∃ a ∈ [(⟨⟨1, 0⟩, 1, 1, true, 5⟩ : AlarmEntry)],
          matchesEntry 1 1 a = true ∧ a.executing = true) →
        (cancelPass 1 1 5 [⟨⟨1, 0⟩, 1, 1, true, 5⟩]).err = true) ∧
      ((cancelPass 1 1 5 [⟨⟨2, 0⟩, 1, 1, true, 9⟩]).executing ≠ 0 ↔
        ∃ a ∈ [(⟨⟨2, 0⟩, 1, 1, true, 9⟩ : AlarmEntry)],
          foreignExec 1 1 5 a) :=
  C8_self_cancel_one_pass 1 1 5 [⟨⟨1, 0⟩, 1, 1, true, 5⟩]
    [⟨⟨2, 0⟩, 1, 1, true, 9⟩] (by decide)

end EalAlarm
